/-
Verification of the abstract problem-solving framework (src/src/core.py,
src/src/store.py, src/src/mapping.py) against its specification.

Shallow embedding conventions:
  * Python `str` is `String`; Python lists are `List`.
  * Python sets are represented by lists used membership-wise (or by
    `List.dedup` where cardinality matters).
  * Python `dict[str, Any]` property bags (`properties`, `args`, `metadata`,
    `axioms`) are `List (String × PyVal)` association lists in insertion
    order; `PyVal` covers the JSON-serializable scalar values the code only
    ever passes through unchanged.
  * Python floats (match scores, thresholds) are modelled as exact
    rationals `ℚ`; the code only ever forms quotients of small naturals.
  * Python string-keyed dicts with insertion-order iteration (the store's
    pattern map, `DomainMapping.operation_map`) are association lists with
    Python's update-in-place / append-if-new semantics (`dictInsert`,
    `storeInsert`).
  * The recursive DFS in `Structure._check_cycle` is embedded with an
    explicit fuel parameter returning `Option`; the fuel bound
    `structureFuel` is proved sufficient (`checkCycleO_isSome`), mirroring
    termination of the Python recursion.
-/
import Mathlib

namespace APS

/-- JSON-serializable scalar Python values appearing in open property bags.
Nested lists/dicts are elided: the code never inspects bag values, it only
passes them through. -/
inductive PyVal where
  | vnull : PyVal
  | vbool : Bool → PyVal
  | vint : Int → PyVal
  | vstr : String → PyVal
deriving DecidableEq, Repr

/-- An open property bag: `dict[str, Any]` in insertion order. -/
abbrev PropBag := List (String × PyVal)

/-- `Entity` from core.py: a node in the problem's structural graph. -/
structure Entity where
  id : String
  type : String
  properties : PropBag := []
deriving DecidableEq, Repr

/-- `Relation` from core.py: a directed edge between entities. -/
structure Relation where
  source : String
  target : String
  type : String
  properties : PropBag := []
deriving DecidableEq, Repr

/-- `Structure` from core.py: entities are nodes, relations are edges. -/
structure Structure where
  entities : List Entity := []
  relations : List Relation := []
deriving DecidableEq, Repr

/-- `ConstraintType` enum from core.py. -/
inductive ConstraintType where
  | invariant | precondition | boundary
deriving DecidableEq, Repr

/-- `Constraint` from core.py. -/
structure Constraint where
  predicate : String
  over : List String
  type : ConstraintType := ConstraintType.invariant
deriving DecidableEq, Repr

/-- `GoalType` enum from core.py. -/
inductive GoalType where
  | find | transform | prove | optimize | construct
deriving DecidableEq, Repr

/-- `Goal` from core.py. -/
structure Goal where
  type : GoalType
  target : String
  predicate : String
deriving DecidableEq, Repr

/-- `Problem` from core.py (`structure` field renamed `struct`: Lean keyword). -/
structure Problem where
  id : String
  name : String
  struct : Structure
  constraints : List Constraint := []
  goal : Option Goal := none
  tags : List String := []
deriving DecidableEq, Repr

/-- `Operation` enum from core.py: the catalog of abstract operations. -/
inductive Operation where
  | decompose | compose | transform | reduce | search
  | fix | dualize | lift | project | classify
deriving DecidableEq, Repr

/-- `Step` from core.py. -/
structure Step where
  operation : Operation
  args : PropBag := []
  binds : Option String := none
  rationale : String := ""
deriving DecidableEq, Repr

/-- `CompositionType` enum from core.py. -/
inductive CompositionType where
  | sequential | parallel | conditional | iterative
deriving DecidableEq, Repr

/-- `Transformation` from core.py. -/
structure Transformation where
  steps : List Step := []
  composition_type : CompositionType := CompositionType.sequential
deriving DecidableEq, Repr

/-- `Postcondition` from core.py. -/
structure Postcondition where
  predicate : String
  guarantees : String
deriving DecidableEq, Repr

/-- `Solution` from core.py. -/
structure Solution where
  id : String
  name : String
  preconditions : List String := []
  transformation : Transformation := {}
  postconditions : List Postcondition := []
  metadata : PropBag := []
deriving DecidableEq, Repr

/-- `Instantiation` from core.py. -/
structure Instantiation where
  domain : String
  concrete_problem : String
  concrete_solution : String
  mapping_notes : String := ""
deriving DecidableEq, Repr

/-- `Pattern` from core.py: the unit of storage. -/
structure Pattern where
  id : String
  name : String
  description : String
  problem : Problem
  solution : Solution
  instantiations : List Instantiation := []
  related_patterns : List String := []
  tags : List String := []
deriving DecidableEq, Repr

/- ------------------------------------------------------------------
Structural feature detector (core.py, Structure methods)
------------------------------------------------------------------ -/

namespace Structure

/-- `Structure._check_recursive`: some entity-type label occurs twice
(`len(types) != len(set(types))`). -/
def checkRecursive (s : Structure) : Bool :=
  (s.entities.map Entity.type).length != (s.entities.map Entity.type).dedup.length

/-- `Structure._check_linear_chain`: the count of `ordered_before` relations
equals entity count minus one.  Python's `len - 1` is over ℤ, so an empty
entity list gives `-1`, never matched. -/
def checkLinearChain (s : Structure) : Bool :=
  ((s.relations.filter (fun r => r.type == "ordered_before")).length : Int)
    == (s.entities.length : Int) - 1

/-- `Structure._check_tree`: the count of `contains` relations equals entity
count minus one (ℤ arithmetic, as in `checkLinearChain`). -/
def checkTree (s : Structure) : Bool :=
  ((s.relations.filter (fun r => r.type == "contains")).length : Int)
    == (s.entities.length : Int) - 1

/-- `Structure._check_bipartite`: exactly two distinct entity-type labels. -/
def checkBipartite (s : Structure) : Bool :=
  (s.entities.map Entity.type).dedup.length == 2

/-- The adjacency lookup `adj.get(node, [])` of `_check_cycle`: the targets of
all relations whose source is `x`, in list order.  (The Python dict is built
from entity ids and relation sources, and `.get` defaults to `[]`; for every
key the value is exactly this filtered target list.) -/
def adjGet (s : Structure) (x : String) : List String :=
  (s.relations.filter (fun r => r.source == x)).map Relation.target

/-- One directed edge step of the structure's graph: `b` is an edge-successor
of `a`. -/
def StepRel (s : Structure) (a b : String) : Prop := b ∈ s.adjGet a

instance (s : Structure) (a b : String) : Decidable (StepRel s a b) := by
  unfold StepRel; infer_instance

/-- Reflexive-transitive closure of `StepRel`: a directed path (possibly
empty) from `a` to `b`. -/
inductive Reaches (s : Structure) : String → String → Prop where
  | refl (a : String) : Reaches s a a
  | tail {a b c : String} : Reaches s a b → StepRel s b c → Reaches s a c

/-- Transitive closure of `StepRel`: a directed path of length ≥ 1. -/
inductive ReachesPlus (s : Structure) : String → String → Prop where
  | single {a b : String} : StepRel s a b → ReachesPlus s a b
  | tail {a b c : String} : ReachesPlus s a b → StepRel s b c → ReachesPlus s a c

/-- A directed cycle exists through node `x`. -/
def OnCycle (s : Structure) (x : String) : Prop := ReachesPlus s x x

/-- A directed cycle exists somewhere in the edge multigraph. -/
def HasDirectedCycle (s : Structure) : Prop := ∃ x, OnCycle s x

/-- A directed cycle exists that is reachable from some entity id. -/
def HasEntityReachableCycle (s : Structure) : Prop :=
  ∃ e ∈ s.entities, ∃ x, Reaches s e.id x ∧ OnCycle s x

/-- The DFS color invariant: every black node (visited and not on the
stack) has only black successors and lies on no directed cycle. -/
def DfsInv (s : Structure) (V S : List String) : Prop :=
  ∀ x ∈ V, x ∉ S →
    (∀ n, StepRel s x n → n ∈ V ∧ n ∉ S) ∧ ¬ OnCycle s x

/-- The neighbor loop of `dfs` (`for neighbor in adj.get(node, [])`),
parameterized by the recursive `dfs` call at the next fuel level: an
`in_stack` hit returns true; unvisited neighbors are explored recursively,
threading the visited set. -/
def dfsList (dfs : String → List String → List String → Option (Bool × List String)) :
    List String → List String → List String → Option (Bool × List String)
  | [], visited, _ => some (false, visited)
  | n :: rest, visited, stack =>
      if n ∈ stack then some (true, visited)
      else if n ∈ visited then dfsList dfs rest visited stack
      else
        match dfs n visited stack with
        | none => none
        | some (true, v₁) => some (true, v₁)
        | some (false, v₁) => dfsList dfs rest v₁ stack

/-- The recursive `dfs` of `_check_cycle`, with explicit fuel.  Returns the
found-cycle flag together with the final visited set; `none` means the fuel
ran out (proved unreachable for `structureFuel`). -/
def dfsAux (s : Structure) : Nat → String → List String → List String →
    Option (Bool × List String)
  | 0 => fun _ _ _ => none
  | fuel + 1 => fun node visited stack =>
      dfsList (dfsAux s fuel) (s.adjGet node) (node :: visited) (node :: stack)

/-- The outer loop of `_check_cycle`:
`any(dfs(e.id) for e in self.entities if e.id not in visited)`, with
short-circuiting and the visited set threaded between roots. -/
def cycleLoopAux (s : Structure) (fuel : Nat) :
    List Entity → List String → Option Bool
  | [], _ => some false
  | e :: rest, visited =>
      if e.id ∈ visited then cycleLoopAux s fuel rest visited
      else
        match dfsAux s fuel e.id visited [] with
        | none => none
        | some (true, _) => some true
        | some (false, v') => cycleLoopAux s fuel rest v'

/-- Every node id the DFS can ever visit: entity ids and relation targets. -/
def allNodes (s : Structure) : Finset String :=
  (s.entities.map Entity.id).toFinset ∪ (s.relations.map Relation.target).toFinset

/-- Fuel that provably suffices for the DFS (one unit per newly visited
node, plus one). -/
def structureFuel (s : Structure) : Nat := (allNodes s).card + 1

/-- `Structure._check_cycle` before resolving the (dead) out-of-fuel case. -/
def checkCycleO (s : Structure) : Option Bool :=
  if s.relations.isEmpty then some false
  else cycleLoopAux s (structureFuel s) s.entities []

/-- `Structure._check_cycle`: the guard `if not self.relations: return False`
followed by the DFS over all entity roots. -/
def checkCycle (s : Structure) : Bool := (s.checkCycleO).getD false

/-- `Structure.has_feature` before resolving the cycle check's fuel. -/
def hasFeatureO (s : Structure) (feature : String) : Option Bool :=
  if feature = "recursive_decomposability" then some s.checkRecursive
  else if feature = "linear_chain" then some s.checkLinearChain
  else if feature = "tree" then some s.checkTree
  else if feature = "cycle" then s.checkCycleO
  else if feature = "bipartite" then some s.checkBipartite
  else some false

/-- `Structure.has_feature`: dispatch on the feature name, `False` for
unknown names (the dict `.get` miss). -/
def hasFeature (s : Structure) (feature : String) : Bool :=
  (s.hasFeatureO feature).getD false

end Structure

/-- `Problem.structural_features`: the fixed vocabulary filtered by
`has_feature`, in the source's order. -/
def Problem.structuralFeatures (p : Problem) : List String :=
  ["recursive_decomposability", "linear_chain", "tree", "cycle", "bipartite"].filter
    (fun f => p.struct.hasFeature f)

/- ------------------------------------------------------------------
Pattern store and matching (store.py)
------------------------------------------------------------------ -/

/-- `MatchResult` from store.py.  `score` is the Python float, modelled as an
exact rational. -/
structure MatchResult where
  pattern : Pattern
  score : ℚ
  matched_features : List String
  unmatched_preconditions : List String
deriving DecidableEq, Repr

/-- The store's `self._patterns` dict: an association list in insertion
order.  Python dict update keeps an existing key's position and replaces the
value; a new key is appended. -/
abbrev StoreMap := List (String × Pattern)

/-- Python dict assignment `d[k] = p` on the store map. -/
def storeInsert (st : StoreMap) (k : String) (p : Pattern) : StoreMap :=
  if st.any (fun kv => kv.1 == k) then
    st.map (fun kv => if kv.1 == k then (k, p) else kv)
  else st ++ [(k, p)]

/-- `PatternStore.add`: insert/replace by `pattern.id`. -/
def storeAdd (st : StoreMap) (p : Pattern) : StoreMap := storeInsert st p.id p

/-- `PatternStore.all_patterns` / `self._patterns.values()` iteration. -/
def storeValues (st : StoreMap) : List Pattern := st.map Prod.snd

/-- Insert a string into an ascending-sorted list, before the first
greater-or-equal element (stability of Python's sort). -/
def insertAsc (x : String) : List String → List String
  | [] => [x]
  | y :: ys => if x ≤ y then x :: y :: ys else y :: insertAsc x ys

/-- Python `sorted` on a list of strings (stable ascending lexicographic). -/
def sortStr : List String → List String
  | [] => []
  | x :: xs => insertAsc x (sortStr xs)

/-- The problem's feature set used by `match`:
`set(problem.structural_features) | set(problem.tags)`, membership-wise. -/
def featureSet (p : Problem) : List String := p.structuralFeatures ++ p.tags

/-- The per-pattern body of the `match` loop: `None` when the pattern is
filtered out by the threshold.  `required` is `set(...preconditions)`,
realised as the deduplicated list. -/
def matchOne (feats : List String) (threshold : ℚ) (p : Pattern) :
    Option MatchResult :=
  let required := p.solution.preconditions.dedup
  if required.isEmpty then
    some ⟨p, 1/10, [], []⟩
  else
    let matched := required.filter (fun x => decide (x ∈ feats))
    let unmatched := required.filter (fun x => decide (x ∉ feats))
    let score : ℚ := (matched.length : ℚ) / (required.length : ℚ)
    if threshold ≤ score then
      some ⟨p, score, sortStr matched, sortStr unmatched⟩
    else none

/-- Python's stable `list.sort(key=score, reverse=True)`: insert each earlier
element before the first smaller-or-equal score, keeping original order among
equal scores. -/
def insertDesc (r : MatchResult) : List MatchResult → List MatchResult
  | [] => [r]
  | x :: xs => if x.score ≤ r.score then r :: x :: xs else x :: insertDesc r xs

/-- Stable descending sort by score. -/
def sortByScoreDesc : List MatchResult → List MatchResult
  | [] => []
  | r :: rs => insertDesc r (sortByScoreDesc rs)

/-- `PatternStore.match`: score every stored pattern against the problem's
feature set, filter by threshold (except the empty-preconditions bypass),
sort descending by score. -/
def storeMatch (st : StoreMap) (problem : Problem) (threshold : ℚ) :
    List MatchResult :=
  sortByScoreDesc ((storeValues st).filterMap (matchOne (featureSet problem) threshold))

/- ------------------------------------------------------------------
Serialization (store.py: _pattern_to_dict / _dict_to_pattern, save / load)

The JSON dicts written by `_pattern_to_dict` are modelled as records
mirroring the JSON shape field-for-field; enum fields are the raw strings
the JSON holds, so enum-violating records are representable.  `json.dumps`
followed by `json.loads` is the identity on these values, so the text layer
is elided.
------------------------------------------------------------------ -/

/-- Serialized `Entity`. -/
structure EntityD where
  id : String
  type : String
  properties : PropBag
deriving DecidableEq, Repr

/-- Serialized `Relation`. -/
structure RelationD where
  source : String
  target : String
  type : String
  properties : PropBag
deriving DecidableEq, Repr

/-- Serialized `Structure`. -/
structure StructureD where
  entities : List EntityD
  relations : List RelationD
deriving DecidableEq, Repr

/-- Serialized `Constraint`; `type` is the enum's string tag. -/
structure ConstraintD where
  predicate : String
  over : List String
  type : String
deriving DecidableEq, Repr

/-- Serialized `Goal`; `type` is the enum's string tag. -/
structure GoalD where
  type : String
  target : String
  predicate : String
deriving DecidableEq, Repr

/-- Serialized `Problem` (`structure` key renamed `struct`: Lean keyword). -/
structure ProblemD where
  id : String
  name : String
  struct : StructureD
  constraints : List ConstraintD
  goal : Option GoalD
  tags : List String
deriving DecidableEq, Repr

/-- Serialized `Step`; `operation` is the enum's string tag. -/
structure StepD where
  operation : String
  args : PropBag
  binds : Option String
  rationale : String
deriving DecidableEq, Repr

/-- Serialized `Transformation`; `composition_type` is the enum's tag. -/
structure TransformationD where
  steps : List StepD
  composition_type : String
deriving DecidableEq, Repr

/-- Serialized `Postcondition`. -/
structure PostconditionD where
  predicate : String
  guarantees : String
deriving DecidableEq, Repr

/-- Serialized `Solution`.  Note: `_pattern_to_dict` writes no `metadata`
key, so the record has no metadata field. -/
structure SolutionD where
  id : String
  name : String
  preconditions : List String
  transformation : TransformationD
  postconditions : List PostconditionD
deriving DecidableEq, Repr

/-- Serialized `Instantiation`. -/
structure InstantiationD where
  domain : String
  concrete_problem : String
  concrete_solution : String
  mapping_notes : String
deriving DecidableEq, Repr

/-- Serialized `Pattern`: one element of the JSON list written by `save`. -/
structure PatternD where
  id : String
  name : String
  description : String
  problem : ProblemD
  solution : SolutionD
  instantiations : List InstantiationD
  related_patterns : List String
  tags : List String
deriving DecidableEq, Repr

/-- `ConstraintType(...).value`. -/
def ConstraintType.value : ConstraintType → String
  | .invariant => "invariant"
  | .precondition => "precondition"
  | .boundary => "boundary"

/-- `ConstraintType(tag)`: `none` models the `ValueError` on an unknown tag. -/
def ConstraintType.fromValue : String → Option ConstraintType
  | "invariant" => some .invariant
  | "precondition" => some .precondition
  | "boundary" => some .boundary
  | _ => none

/-- `GoalType(...).value`. -/
def GoalType.value : GoalType → String
  | .find => "find"
  | .transform => "transform"
  | .prove => "prove"
  | .optimize => "optimize"
  | .construct => "construct"

/-- `GoalType(tag)`: `none` models the `ValueError` on an unknown tag. -/
def GoalType.fromValue : String → Option GoalType
  | "find" => some .find
  | "transform" => some .transform
  | "prove" => some .prove
  | "optimize" => some .optimize
  | "construct" => some .construct
  | _ => none

/-- `Operation(...).value`. -/
def Operation.value : Operation → String
  | .decompose => "decompose"
  | .compose => "compose"
  | .transform => "transform"
  | .reduce => "reduce"
  | .search => "search"
  | .fix => "fix"
  | .dualize => "dualize"
  | .lift => "lift"
  | .project => "project"
  | .classify => "classify"

/-- `Operation(tag)`: `none` models the `ValueError` on an unknown tag. -/
def Operation.fromValue : String → Option Operation
  | "decompose" => some .decompose
  | "compose" => some .compose
  | "transform" => some .transform
  | "reduce" => some .reduce
  | "search" => some .search
  | "fix" => some .fix
  | "dualize" => some .dualize
  | "lift" => some .lift
  | "project" => some .project
  | "classify" => some .classify
  | _ => none

/-- `CompositionType(...).value`. -/
def CompositionType.value : CompositionType → String
  | .sequential => "sequential"
  | .parallel => "parallel"
  | .conditional => "conditional"
  | .iterative => "iterative"

/-- `CompositionType(tag)`: `none` models the `ValueError` on an unknown
tag. -/
def CompositionType.fromValue : String → Option CompositionType
  | "sequential" => some .sequential
  | "parallel" => some .parallel
  | "conditional" => some .conditional
  | "iterative" => some .iterative
  | _ => none

/-- `_pattern_to_dict`: total encoder.  Field-for-field copy; enums become
their string tags; `Solution.metadata` is (faithfully to the source) not
written. -/
def patternToDict (p : Pattern) : PatternD where
  id := p.id
  name := p.name
  description := p.description
  problem := {
    id := p.problem.id
    name := p.problem.name
    struct := {
      entities := p.problem.struct.entities.map
        (fun e => { id := e.id, type := e.type, properties := e.properties })
      relations := p.problem.struct.relations.map
        (fun r => { source := r.source, target := r.target, type := r.type,
                    properties := r.properties }) }
    constraints := p.problem.constraints.map
      (fun c => { predicate := c.predicate, over := c.over, type := c.type.value })
    goal := p.problem.goal.map
      (fun g => { type := g.type.value, target := g.target, predicate := g.predicate })
    tags := p.problem.tags }
  solution := {
    id := p.solution.id
    name := p.solution.name
    preconditions := p.solution.preconditions
    transformation := {
      steps := p.solution.transformation.steps.map
        (fun s => { operation := s.operation.value, args := s.args,
                    binds := s.binds, rationale := s.rationale })
      composition_type := p.solution.transformation.composition_type.value }
    postconditions := p.solution.postconditions.map
      (fun pc => { predicate := pc.predicate, guarantees := pc.guarantees }) }
  instantiations := p.instantiations.map
    (fun i => { domain := i.domain, concrete_problem := i.concrete_problem,
                concrete_solution := i.concrete_solution,
                mapping_notes := i.mapping_notes })
  related_patterns := p.related_patterns
  tags := p.tags

/-- Decode one serialized step (`Step(operation=Operation(...), ...)`). -/
def dictToStep (s : StepD) : Option Step :=
  (Operation.fromValue s.operation).map
    (fun op => { operation := op, args := s.args, binds := s.binds,
                 rationale := s.rationale })

/-- Decode one serialized constraint. -/
def dictToConstraint (c : ConstraintD) : Option Constraint :=
  (ConstraintType.fromValue c.type).map
    (fun t => { predicate := c.predicate, over := c.over, type := t })

/-- A Python list comprehension whose body may raise: the first failing
element propagates the exception (`none`). -/
def decodeList {α β : Type} (g : α → Option β) : List α → Option (List β)
  | [] => some []
  | x :: xs =>
      match g x with
      | none => none
      | some y => (decodeList g xs).map (fun ys => y :: ys)

/-- `_dict_to_pattern`: `none` models the propagated `ValueError` of an
enum-violating record.  (Missing-key `KeyError`s are not representable in
the record model; enum violations are the malformed records considered.) -/
def dictToPattern (d : PatternD) : Option Pattern := do
  let constraints ← decodeList dictToConstraint d.problem.constraints
  let goal : Option Goal ← match d.problem.goal with
    | none => some none
    | some g =>
        match GoalType.fromValue g.type with
        | none => none
        | some t =>
            some (some { type := t, target := g.target, predicate := g.predicate })
  let steps ← decodeList dictToStep d.solution.transformation.steps
  let compType ← CompositionType.fromValue d.solution.transformation.composition_type
  some {
    id := d.id
    name := d.name
    description := d.description
    problem := {
      id := d.problem.id
      name := d.problem.name
      struct := {
        entities := d.problem.struct.entities.map
          (fun e => { id := e.id, type := e.type, properties := e.properties })
        relations := d.problem.struct.relations.map
          (fun r => { source := r.source, target := r.target, type := r.type,
                      properties := r.properties }) }
      constraints := constraints
      goal := goal
      tags := d.problem.tags }
    solution := {
      id := d.solution.id
      name := d.solution.name
      preconditions := d.solution.preconditions
      transformation := { steps := steps, composition_type := compType }
      postconditions := d.solution.postconditions.map
        (fun pc => { predicate := pc.predicate, guarantees := pc.guarantees })
      metadata := [] }
    instantiations := d.instantiations.map
      (fun i => { domain := i.domain, concrete_problem := i.concrete_problem,
                  concrete_solution := i.concrete_solution,
                  mapping_notes := i.mapping_notes })
    related_patterns := d.related_patterns
    tags := d.tags }

/-- `PatternStore.save`: the JSON list written to disk. -/
def storeSave (st : StoreMap) : List PatternD :=
  (storeValues st).map patternToDict

/-- `PatternStore.load`'s record loop: decode and insert one record at a
time, mutating the store as it goes.  The first failing record aborts with
the store as mutated so far — exactly the Python exception behaviour. -/
def loadAux : List PatternD → StoreMap → Bool × StoreMap
  | [], st => (true, st)
  | d :: rest, st =>
      match dictToPattern d with
      | none => (false, st)
      | some p => loadAux rest (storeAdd st p)

/- ------------------------------------------------------------------
Domain mapping (mapping.py)
------------------------------------------------------------------ -/

/-- A Python `dict[str, str]` as an insertion-ordered association list. -/
abbrev StrDict := List (String × String)

/-- Python dict assignment `d[k] = v`: replace in place, else append. -/
def dictInsert (d : StrDict) (k v : String) : StrDict :=
  if d.any (fun kv => kv.1 == k) then
    d.map (fun kv => if kv.1 == k then (k, v) else kv)
  else d ++ [(k, v)]

/-- Python `d.get(k)`. -/
def dictGet (d : StrDict) (k : String) : Option String :=
  (d.find? (fun kv => kv.1 == k)).map Prod.snd

/-- The dict comprehension `{v: k for k, v in m.items()}`: iterate the
forward entries in order, later duplicates of an abstract label
overwriting earlier ones (last-write-wins). -/
def invertDict (m : StrDict) : StrDict :=
  m.foldl (fun acc kv => dictInsert acc kv.2 kv.1) []

/-- `DomainMapping` from mapping.py. -/
structure DomainMapping where
  domain : String
  type_map : StrDict := []
  operation_map : StrDict := []
deriving DecidableEq, Repr

/-- `DomainMapping.inverse_operation_map`. -/
def DomainMapping.inverseOperationMap (m : DomainMapping) : StrDict :=
  invertDict m.operation_map

/-- The match score of a pattern with nonempty preconditions: the fraction
of its (deduplicated) preconditions found in the problem's feature set. -/
def matchScore (p : Pattern) (problem : Problem) : ℚ :=
  ((p.solution.preconditions.dedup.filter
      (fun x => decide (x ∈ featureSet problem))).length : ℚ) /
    (p.solution.preconditions.dedup.length : ℚ)

/- ------------------------------------------------------------------
Concrete instances used by witnesses and counterexamples
------------------------------------------------------------------ -/

/-- A solution with no preconditions, no steps, no metadata. -/
def emptySolution : Solution :=
  { id := "s0", name := "s0" }

/-- A problem over the empty structure, with no tags: its feature set is
empty. -/
def trivProblem : Problem :=
  { id := "p0", name := "p0", struct := {} }

/-- A pattern whose solution has an empty precondition list. -/
def patNoPre : Pattern :=
  { id := "pat0", name := "pat0", description := "", problem := trivProblem,
    solution := emptySolution }

/-- A pattern requiring features `a` and `b`. -/
def patAB : Pattern :=
  { id := "patAB", name := "patAB", description := "", problem := trivProblem,
    solution := { emptySolution with id := "sAB", preconditions := ["a", "b"] } }

/-- A problem tagged only `a`. -/
def probA : Problem :=
  { trivProblem with id := "pA", tags := ["a"] }

/-- A serialized record with an enum-violating composition type: decoding
it raises. -/
def badDict : PatternD :=
  { patternToDict patNoPre with
      solution := { (patternToDict patNoPre).solution with
        transformation := { steps := [], composition_type := "bogus" } } }

/-- A pattern whose solution carries nonempty metadata. -/
def patMeta : Pattern :=
  { patNoPre with
    id := "meta"
    solution := { emptySolution with metadata := [("k", PyVal.vstr "v")] } }

/-- A structure whose only cycle runs through node ids that appear only as
edge endpoints, never in the entity list. -/
def sGhostCycle : Structure :=
  { entities := [],
    relations := [ { source := "a", target := "b", type := "t" },
                   { source := "b", target := "a", type := "t" } ] }

/-- A two-entity structure with a genuine 2-cycle, edges in one order. -/
def sCyc1 : Structure :=
  { entities := [ { id := "a", type := "x" }, { id := "b", type := "x" } ],
    relations := [ { source := "a", target := "b", type := "t" },
                   { source := "b", target := "a", type := "t" } ] }

/-- The same structure with the edge list permuted. -/
def sCyc2 : Structure :=
  { entities := [ { id := "a", type := "x" }, { id := "b", type := "x" } ],
    relations := [ { source := "b", target := "a", type := "t" },
                   { source := "a", target := "b", type := "t" } ] }

/-- A concrete injective domain mapping. -/
def mapC9 : DomainMapping :=
  { domain := "d",
    operation_map := [("split", "decompose"), ("join", "compose")] }

/- ==================================================================
THEOREMS
================================================================== -/

/-- Inserting into the descending sort permutes a cons. -/
theorem insertDesc_perm (r : MatchResult) (l : List MatchResult) :
    (insertDesc r l).Perm (r :: l) := by
  induction l with
  | nil => simp [insertDesc]
  | cons x xs ih =>
      by_cases h : x.score ≤ r.score
      · simp [insertDesc, h]
      · simp only [insertDesc, if_neg h]
        exact (ih.cons x).trans (List.Perm.swap r x xs)

/-- The descending sort is a permutation of its input. -/
theorem sortByScoreDesc_perm (l : List MatchResult) : (sortByScoreDesc l).Perm l := by
  induction l with
  | nil => exact List.Perm.refl _
  | cons r rs ih => exact (insertDesc_perm r _).trans (ih.cons r)

/-- Inserting into a descending-sorted list keeps it descending-sorted. -/
theorem insertDesc_sorted (r : MatchResult) (l : List MatchResult)
    (h : l.Pairwise (fun a b => b.score ≤ a.score)) :
    (insertDesc r l).Pairwise (fun a b => b.score ≤ a.score) := by
  induction l with
  | nil => simp [insertDesc]
  | cons x xs ih =>
      rw [List.pairwise_cons] at h
      obtain ⟨hx, hxs⟩ := h
      by_cases hle : x.score ≤ r.score
      · simp only [insertDesc, if_pos hle]
        rw [List.pairwise_cons]
        refine ⟨?_, List.pairwise_cons.mpr ⟨hx, hxs⟩⟩
        intro b hb
        rcases List.mem_cons.mp hb with h1 | h2
        · exact h1 ▸ hle
        · exact (hx b h2).trans hle
      · simp only [insertDesc, if_neg hle]
        rw [List.pairwise_cons]
        refine ⟨?_, ih hxs⟩
        intro b hb
        rcases List.mem_cons.mp ((insertDesc_perm r xs).mem_iff.mp hb) with h1 | h2
        · exact h1 ▸ le_of_not_le hle
        · exact hx b h2

/-- The output of the descending sort is sorted by score descending. -/
theorem sortByScoreDesc_sorted (l : List MatchResult) :
    (sortByScoreDesc l).Pairwise (fun a b => b.score ≤ a.score) := by
  induction l with
  | nil => simp [sortByScoreDesc]
  | cons r rs ih => exact insertDesc_sorted r _ ih

/-- C10: for every structure and every feature name outside the fixed
five-name vocabulary, `has_feature` returns `False` (never an error, never
`True`). -/
theorem hasFeature_unknown_false (s : Structure) (f : String)
    (h : f ∉ ["recursive_decomposability", "linear_chain", "tree", "cycle",
              "bipartite"]) :
    s.hasFeature f = false := by
  simp only [List.mem_cons, List.not_mem_nil, or_false, not_or] at h
  obtain ⟨h1, h2, h3, h4, h5⟩ := h
  simp [Structure.hasFeature, Structure.hasFeatureO, h1, h2, h3, h4, h5]

/-- C10 witness: the unknown feature name `foo` on the empty structure. -/
theorem hasFeature_unknown_false_witness :
    "foo" ∉ ["recursive_decomposability", "linear_chain", "tree", "cycle",
             "bipartite"] ∧
    Structure.hasFeature { entities := [], relations := [] } "foo" = false :=
  ⟨by decide, hasFeature_unknown_false { entities := [], relations := [] } "foo" (by decide)⟩

/-- C2: a stored pattern whose solution has an empty precondition list is
always included in `match` results with score exactly 0.1 and empty
matched/unmatched lists, for every problem and every threshold. -/
theorem match_empty_preconditions_included
    (st : StoreMap) (problem : Problem) (threshold : ℚ) (p : Pattern)
    (hp : p ∈ storeValues st) (hpre : p.solution.preconditions = []) :
    ∃ r ∈ storeMatch st problem threshold,
      r.pattern = p ∧ r.score = 1/10 ∧ r.matched_features = [] ∧
      r.unmatched_preconditions = [] := by
  have hm : matchOne (featureSet problem) threshold p =
      some ⟨p, 1/10, [], []⟩ := by
    simp [matchOne, hpre]
  have hmem : (⟨p, 1/10, [], []⟩ : MatchResult) ∈
      (storeValues st).filterMap (matchOne (featureSet problem) threshold) :=
    List.mem_filterMap.mpr ⟨p, hp, hm⟩
  exact ⟨⟨p, 1/10, [], []⟩,
    (sortByScoreDesc_perm _).mem_iff.mpr hmem, rfl, rfl, rfl, rfl⟩

/-- C2 witness: the empty-precondition pattern at threshold 0. -/
theorem match_empty_preconditions_included_witness :
    patNoPre ∈ storeValues [("pat0", patNoPre)] ∧
    patNoPre.solution.preconditions = [] ∧
    ∃ r ∈ storeMatch [("pat0", patNoPre)] trivProblem 0,
      r.pattern = patNoPre ∧ r.score = 1/10 ∧ r.matched_features = [] ∧
      r.unmatched_preconditions = [] :=
  ⟨by decide, by decide,
    match_empty_preconditions_included _ trivProblem 0 _ (by decide) (by decide)⟩

/-- C3 counterexample: at threshold 1/2 > 0.1 the empty-precondition
pattern is still included (the claim says it is excluded). -/
theorem match_empty_preconditions_excluded_cex :
    (1/10 : ℚ) < 1/2 ∧
    ∃ r ∈ storeMatch [("pat0", patNoPre)] trivProblem (1/2),
      r.pattern = patNoPre ∧ r.score = 1/10 := by
  have h : storeMatch [("pat0", patNoPre)] trivProblem (1/2) =
      [⟨patNoPre, 1/10, [], []⟩] := rfl
  exact ⟨by norm_num, ⟨patNoPre, 1/10, [], []⟩, by rw [h]; exact List.mem_singleton.mpr rfl,
    rfl, rfl⟩

/-- C3 (amended): an empty-precondition pattern is included with score 0.1
even when the threshold is strictly greater than 0.1 — the bypass ignores
the threshold entirely. -/
theorem match_empty_preconditions_included_above_threshold
    (st : StoreMap) (problem : Problem) (threshold : ℚ) (p : Pattern)
    (hp : p ∈ storeValues st) (hpre : p.solution.preconditions = [])
    (_hth : (1/10 : ℚ) < threshold) :
    ∃ r ∈ storeMatch st problem threshold,
      r.pattern = p ∧ r.score = 1/10 ∧ r.matched_features = [] ∧
      r.unmatched_preconditions = [] := by
  have hm : matchOne (featureSet problem) threshold p =
      some ⟨p, 1/10, [], []⟩ := by
    simp [matchOne, hpre]
  have hmem : (⟨p, 1/10, [], []⟩ : MatchResult) ∈
      (storeValues st).filterMap (matchOne (featureSet problem) threshold) :=
    List.mem_filterMap.mpr ⟨p, hp, hm⟩
  exact ⟨⟨p, 1/10, [], []⟩,
    (sortByScoreDesc_perm _).mem_iff.mpr hmem, rfl, rfl, rfl, rfl⟩

/-- C3 witness: the empty-precondition pattern at threshold 1 > 0.1. -/
theorem match_empty_preconditions_included_above_threshold_witness :
    patNoPre ∈ storeValues [("pat0", patNoPre)] ∧
    patNoPre.solution.preconditions = [] ∧ (1/10 : ℚ) < 1 ∧
    ∃ r ∈ storeMatch [("pat0", patNoPre)] trivProblem 1,
      r.pattern = patNoPre ∧ r.score = 1/10 ∧ r.matched_features = [] ∧
      r.unmatched_preconditions = [] :=
  ⟨by decide, by decide, by norm_num,
    match_empty_preconditions_included_above_threshold _ trivProblem 1 _
      (by decide) (by decide) (by norm_num)⟩

/-- A dict insert below a head whose key is distinct from `k` commutes
with the cons. -/
theorem dictInsert_cons_ne (a b k v : String) (rest : StrDict) (h : ¬ a = k) :
    dictInsert ((a, b) :: rest) k v = (a, b) :: dictInsert rest k v := by
  have hb : ((a, b).1 == k) = false := by simp [h]
  by_cases hr : rest.any (fun kv => kv.1 == k) = true
  · simp [dictInsert, List.any_cons, hb, hr, h]
  · simp [dictInsert, List.any_cons, hb, hr, h]

/-- `dictGet` on a cons. -/
theorem dictGet_cons (a b k : String) (d : StrDict) :
    dictGet ((a, b) :: d) k = if a = k then some b else dictGet d k := by
  by_cases h : a = k
  · simp [dictGet, List.find?_cons, h]
  · simp [dictGet, List.find?_cons, h]

/-- Looking up the key just inserted returns the inserted value. -/
theorem dictGet_insert_self (d : StrDict) (k v : String) :
    dictGet (dictInsert d k v) k = some v := by
  induction d with
  | nil => simp [dictInsert, dictGet]
  | cons kv rest ih =>
      obtain ⟨a, b⟩ := kv
      by_cases h : a = k
      · have hb : ((a, b).1 == k) = true := by simp [h]
        simp only [dictInsert, List.any_cons, hb, Bool.true_or, if_pos, List.map_cons]
        simp [dictGet, List.find?_cons, hb]
      · rw [dictInsert_cons_ne a b k v rest h, dictGet_cons a b k _, if_neg h]
        exact ih

/-- Replacing entries keyed `k'` does not change the binding of `k ≠ k'`. -/
theorem dictGet_mapReplace (d : StrDict) (k' v k : String) (h : ¬ k' = k) :
    dictGet (d.map (fun kv => if kv.1 == k' then (k', v) else kv)) k
      = dictGet d k := by
  induction d with
  | nil => rfl
  | cons kv rest ih =>
      obtain ⟨a, b⟩ := kv
      by_cases h₂ : a = k'
      · rw [List.map_cons, if_pos (show ((a, b).1 == k') = true by simp [h₂])]
        rw [dictGet_cons k' v k, if_neg h, dictGet_cons a b k,
          if_neg (by rw [h₂]; exact h)]
        exact ih
      · rw [List.map_cons, if_neg (show ¬ ((a, b).1 == k') = true by simp [h₂])]
        rw [dictGet_cons a b k, dictGet_cons a b k]
        by_cases h₃ : a = k
        · rw [if_pos h₃, if_pos h₃]
        · rw [if_neg h₃, if_neg h₃]; exact ih

/-- Appending an entry keyed `k'` does not change the binding of `k ≠ k'`. -/
theorem dictGet_append_ne (d : StrDict) (k' v k : String) (h : ¬ k' = k) :
    dictGet (d ++ [(k', v)]) k = dictGet d k := by
  induction d with
  | nil => simp [dictGet_cons, h, dictGet]
  | cons kv rest ih =>
      obtain ⟨a, b⟩ := kv
      rw [List.cons_append, dictGet_cons a b k, dictGet_cons a b k]
      by_cases h₃ : a = k
      · rw [if_pos h₃, if_pos h₃]
      · rw [if_neg h₃, if_neg h₃]; exact ih

/-- Looking up a key other than the inserted one is unchanged. -/
theorem dictGet_insert_ne (d : StrDict) (k' v k : String) (h : ¬ k' = k) :
    dictGet (dictInsert d k' v) k = dictGet d k := by
  unfold dictInsert
  split
  · exact dictGet_mapReplace d k' v k h
  · exact dictGet_append_ne d k' v k h

/-- Folding inverse-insertions whose keys avoid `a` leaves `a`'s binding
unchanged. -/
theorem invert_foldl_untouched (m : StrDict) (acc : StrDict) (a : String)
    (h : a ∉ m.map Prod.snd) :
    dictGet (m.foldl (fun acc kv => dictInsert acc kv.2 kv.1) acc) a
      = dictGet acc a := by
  induction m generalizing acc with
  | nil => rfl
  | cons kv rest ih =>
      simp only [List.map_cons, List.mem_cons, not_or] at h
      rw [List.foldl_cons, ih _ h.2]
      exact dictGet_insert_ne acc kv.2 kv.1 a (fun hx => h.1 hx.symm)

/-- The keys after a dict insert are the old keys plus possibly `k`. -/
theorem mem_keys_dictInsert (d : StrDict) (k v x : String)
    (h : x ∈ (dictInsert d k v).map Prod.fst) :
    x ∈ d.map Prod.fst ∨ x = k := by
  unfold dictInsert at h
  split at h
  · rw [List.map_map] at h
    rcases List.mem_map.mp h with ⟨kv, hkv, hx⟩
    by_cases hk : (kv.1 == k) = true
    · right
      simp only [Function.comp, if_pos hk] at hx
      exact hx.symm ▸ rfl
    · left
      simp only [Function.comp, if_neg hk] at hx
      exact hx ▸ List.mem_map_of_mem Prod.fst hkv
  · rw [List.map_append] at h
    rcases List.mem_append.mp h with h | h
    · exact Or.inl h
    · right; simpa using h

/-- The inversion fold maps each abstract label of an injective forward
dict back to its concrete label. -/
theorem invertDict_foldl_get (m : StrDict) (acc : StrDict) (c a : String)
    (hvals : (m.map Prod.snd).Nodup) (hmem : (c, a) ∈ m)
    (hacc : a ∉ acc.map Prod.fst) :
    dictGet (m.foldl (fun acc kv => dictInsert acc kv.2 kv.1) acc) a = some c := by
  induction m generalizing acc with
  | nil => cases hmem
  | cons kv rest ih =>
      rw [List.map_cons, List.nodup_cons] at hvals
      obtain ⟨hv1, hv2⟩ := hvals
      rw [List.foldl_cons]
      rcases List.mem_cons.mp hmem with heq | hrest
      · subst heq
        rw [invert_foldl_untouched rest _ a (by simpa using hv1)]
        exact dictGet_insert_self acc a c
      · have hne : kv.2 ≠ a := by
          intro hx
          exact hv1 (hx ▸ List.mem_map_of_mem Prod.snd hrest)
        refine ih _ hv2 hrest ?_
        intro hmem'
        rcases mem_keys_dictInsert acc kv.2 kv.1 a hmem' with hin | hik
        · exact hacc hin
        · exact hne hik.symm

/-- C9: for an injective concrete→abstract operation dictionary, reverse
lookup of the abstract label of any entry returns that entry's concrete
label: forward-then-reverse is the identity on non-ambiguous entries. -/
theorem inverse_operation_map_roundtrip (m : DomainMapping) (c a : String)
    (_hkeys : (m.operation_map.map Prod.fst).Nodup)
    (hvals : (m.operation_map.map Prod.snd).Nodup)
    (hmem : (c, a) ∈ m.operation_map) :
    dictGet m.inverseOperationMap a = some c :=
  invertDict_foldl_get m.operation_map [] c a hvals hmem (by simp)

/-- C9 witness: the concrete mapping `split ↦ decompose`, `join ↦ compose`. -/
theorem inverse_operation_map_roundtrip_witness :
    (mapC9.operation_map.map Prod.fst).Nodup ∧
    (mapC9.operation_map.map Prod.snd).Nodup ∧
    ("split", "decompose") ∈ mapC9.operation_map ∧
    dictGet mapC9.inverseOperationMap "decompose" = some "split" :=
  ⟨by decide, by decide, by decide,
    inverse_operation_map_roundtrip mapC9 "split" "decompose"
      (by decide) (by decide) (by decide)⟩

/-- Every result produced by the match loop body carries the pattern it was
computed from. -/
theorem matchOne_pattern_eq (feats : List String) (threshold : ℚ) (p : Pattern)
    (r : MatchResult) (h : matchOne feats threshold p = some r) : r.pattern = p := by
  simp only [matchOne] at h
  split at h
  · rw [Option.some.injEq] at h; rw [← h]
  · split at h
    · rw [Option.some.injEq] at h; rw [← h]
    · exact absurd h (by simp)

/-- A pattern with nonempty preconditions passes the loop body only when its
score reaches the threshold, and the result records precisely that score. -/
theorem matchOne_nonempty_some (feats : List String) (threshold : ℚ) (p : Pattern)
    (r : MatchResult) (hne : ¬ p.solution.preconditions.dedup.isEmpty = true)
    (h : matchOne feats threshold p = some r) :
    threshold ≤ ((p.solution.preconditions.dedup.filter
        (fun x => decide (x ∈ feats))).length : ℚ) /
      (p.solution.preconditions.dedup.length : ℚ) ∧
    r.score = ((p.solution.preconditions.dedup.filter
        (fun x => decide (x ∈ feats))).length : ℚ) /
      (p.solution.preconditions.dedup.length : ℚ) := by
  simp only [matchOne] at h
  rw [if_neg hne] at h
  split at h
  · rw [Option.some.injEq] at h
    exact ⟨by assumption, by rw [← h]⟩
  · exact absurd h (by simp)

/-- A pattern with nonempty preconditions whose score reaches the threshold
is passed through by the loop body with exactly the computed fields. -/
theorem matchOne_nonempty_included (feats : List String) (threshold : ℚ) (p : Pattern)
    (hne : ¬ p.solution.preconditions.dedup.isEmpty = true)
    (hth : threshold ≤ ((p.solution.preconditions.dedup.filter
        (fun x => decide (x ∈ feats))).length : ℚ) /
      (p.solution.preconditions.dedup.length : ℚ)) :
    matchOne feats threshold p = some
      ⟨p, ((p.solution.preconditions.dedup.filter
          (fun x => decide (x ∈ feats))).length : ℚ) /
        (p.solution.preconditions.dedup.length : ℚ),
       sortStr (p.solution.preconditions.dedup.filter (fun x => decide (x ∈ feats))),
       sortStr (p.solution.preconditions.dedup.filter (fun x => decide (x ∉ feats)))⟩ := by
  simp only [matchOne]
  rw [if_neg hne, if_pos hth]

/-- The match score equals the set-cardinality formula |R ∩ F| / |R|. -/
theorem matchScore_eq_card (p : Pattern) (problem : Problem) :
    matchScore p problem =
      ((p.solution.preconditions.toFinset ∩ (featureSet problem).toFinset).card : ℚ) /
        (p.solution.preconditions.toFinset.card : ℚ) := by
  have hA : (p.solution.preconditions.dedup.filter
      (fun x => decide (x ∈ featureSet problem))).toFinset =
      p.solution.preconditions.toFinset ∩ (featureSet problem).toFinset := by
    ext x
    simp [List.mem_toFinset, List.mem_filter, List.mem_dedup, Finset.mem_inter]
  have hnum : ((p.solution.preconditions.toFinset ∩
      (featureSet problem).toFinset).card) =
      (p.solution.preconditions.dedup.filter
        (fun x => decide (x ∈ featureSet problem))).length := by
    rw [← hA, List.card_toFinset,
      List.dedup_eq_self.mpr (List.Nodup.filter _ (List.nodup_dedup _))]
  have hden : p.solution.preconditions.toFinset.card =
      p.solution.preconditions.dedup.length := List.card_toFinset _
  rw [matchScore, hnum, hden]

/-- C5: a stored pattern with nonempty precondition set R appears in `match`
results (carrying score |R ∩ F| / |R|) exactly when that score reaches the
threshold, and the result list is sorted by score descending. -/
theorem match_score_threshold_sorted
    (st : StoreMap) (problem : Problem) (threshold : ℚ) (p : Pattern)
    (hp : p ∈ storeValues st) (hne : p.solution.preconditions ≠ []) :
    ((∃ r ∈ storeMatch st problem threshold,
        r.pattern = p ∧ r.score = matchScore p problem)
      ↔ threshold ≤ matchScore p problem) ∧
    matchScore p problem =
      ((p.solution.preconditions.toFinset ∩ (featureSet problem).toFinset).card : ℚ) /
        (p.solution.preconditions.toFinset.card : ℚ) ∧
    (storeMatch st problem threshold).Pairwise (fun a b => b.score ≤ a.score) := by
  have hne' : ¬ p.solution.preconditions.dedup.isEmpty = true := by
    rw [List.isEmpty_iff, List.dedup_eq_nil]
    exact hne
  refine ⟨⟨?_, ?_⟩, matchScore_eq_card p problem, sortByScoreDesc_sorted _⟩
  · rintro ⟨r, hr, hrp, _⟩
    have hr' : r ∈ (storeValues st).filterMap
        (matchOne (featureSet problem) threshold) :=
      (sortByScoreDesc_perm _).mem_iff.mp hr
    obtain ⟨q, hq, hmq⟩ := List.mem_filterMap.mp hr'
    have : q = p := by rw [← hrp, matchOne_pattern_eq _ _ _ _ hmq]
    subst this
    exact (matchOne_nonempty_some _ _ _ _ hne' hmq).1
  · intro hth
    refine ⟨⟨p, matchScore p problem,
      sortStr (p.solution.preconditions.dedup.filter
        (fun x => decide (x ∈ featureSet problem))),
      sortStr (p.solution.preconditions.dedup.filter
        (fun x => decide (x ∉ featureSet problem)))⟩, ?_, rfl, rfl⟩
    refine (sortByScoreDesc_perm _).mem_iff.mpr ?_
    exact List.mem_filterMap.mpr ⟨p, hp, matchOne_nonempty_included _ _ _ hne' hth⟩

/-- C5 witness: pattern requiring `a` and `b`, problem tagged `a`, threshold
one half. -/
theorem match_score_threshold_sorted_witness :
    patAB ∈ storeValues [("patAB", patAB)] ∧
    patAB.solution.preconditions ≠ [] ∧
    (((∃ r ∈ storeMatch [("patAB", patAB)] probA (1/2),
        r.pattern = patAB ∧ r.score = matchScore patAB probA)
      ↔ (1/2 : ℚ) ≤ matchScore patAB probA) ∧
    matchScore patAB probA =
      ((patAB.solution.preconditions.toFinset ∩ (featureSet probA).toFinset).card : ℚ) /
        (patAB.solution.preconditions.toFinset.card : ℚ) ∧
    (storeMatch [("patAB", patAB)] probA (1/2)).Pairwise
      (fun a b => b.score ≤ a.score)) :=
  ⟨by decide, by decide,
    match_score_threshold_sorted [("patAB", patAB)] probA (1/2) patAB
      (by decide) (by decide)⟩

/-- C1 counterexample: loading a good record followed by an enum-violating
one fails but leaves the good record inserted — the store is not left in
its prior (empty) state. -/
theorem load_failure_unchanged_cex :
    (loadAux [patternToDict patNoPre, badDict] []).1 = false ∧
    (loadAux [patternToDict patNoPre, badDict] []).2 ≠ [] :=
  ⟨rfl, by decide⟩

/-- C1 (amended): when load fails, the store ends up with exactly the
successfully decoded records preceding the offending one inserted (in
order); it is unchanged only when the offending record comes first. -/
theorem load_failure_partial (data : List PatternD) (st st' : StoreMap)
    (h : loadAux data st = (false, st')) :
    ∃ pre d suf ps, data = pre ++ d :: suf ∧
      decodeList dictToPattern pre = some ps ∧
      dictToPattern d = none ∧
      st' = ps.foldl storeAdd st := by
  induction data generalizing st with
  | nil => simp [loadAux] at h
  | cons d₀ rest ih =>
      simp only [loadAux] at h
      cases hd : dictToPattern d₀ with
      | none =>
          rw [hd] at h
          injection h with h1 h2
          subst h2
          exact ⟨[], d₀, rest, [], rfl, rfl, hd, rfl⟩
      | some p =>
          rw [hd] at h
          obtain ⟨pre, d, suf, ps, hdata, hdec, hfail, hst⟩ := ih (storeAdd st p) h
          exact ⟨d₀ :: pre, d, suf, p :: ps, by rw [hdata]; rfl,
            by simp [decodeList, hd, hdec], hfail, by rw [hst]; rfl⟩

/-- C1 witness: the two-record failing load, with its decomposition. -/
theorem load_failure_partial_witness :
    loadAux [patternToDict patNoPre, badDict] [] = (false, [("pat0", patNoPre)]) ∧
    ∃ pre d suf ps,
      [patternToDict patNoPre, badDict] = pre ++ d :: suf ∧
      decodeList dictToPattern pre = some ps ∧
      dictToPattern d = none ∧
      [("pat0", patNoPre)] = ps.foldl storeAdd [] :=
  ⟨rfl, load_failure_partial [patternToDict patNoPre, badDict] [] [("pat0", patNoPre)] rfl⟩

/-- Decoding the encoding succeeds elementwise, so over whole lists. -/
theorem decodeList_map_roundtrip {α β : Type} (f : α → β) (g : β → Option α)
    (h : ∀ a, g (f a) = some a) (l : List α) :
    decodeList g (l.map f) = some l := by
  induction l with
  | nil => rfl
  | cons x xs ih => simp [decodeList, h x, ih]

/-- `Operation` tags round-trip. -/
theorem operation_value_roundtrip (o : Operation) :
    Operation.fromValue o.value = some o := by
  cases o <;> rfl

/-- `ConstraintType` tags round-trip. -/
theorem constraintType_value_roundtrip (c : ConstraintType) :
    ConstraintType.fromValue c.value = some c := by
  cases c <;> rfl

/-- `GoalType` tags round-trip. -/
theorem goalType_value_roundtrip (g : GoalType) :
    GoalType.fromValue g.value = some g := by
  cases g <;> rfl

/-- `CompositionType` tags round-trip. -/
theorem compositionType_value_roundtrip (c : CompositionType) :
    CompositionType.fromValue c.value = some c := by
  cases c <;> rfl

/-- Serialized steps round-trip. -/
theorem dictToStep_roundtrip (s : Step) :
    dictToStep { operation := s.operation.value, args := s.args,
                 binds := s.binds, rationale := s.rationale } = some s := by
  simp [dictToStep, operation_value_roundtrip]

/-- Serialized constraints round-trip. -/
theorem dictToConstraint_roundtrip (c : Constraint) :
    dictToConstraint { predicate := c.predicate, over := c.over,
                       type := c.type.value } = some c := by
  simp [dictToConstraint, constraintType_value_roundtrip]

/-- Entity encode/decode composes to the identity. -/
theorem map_entity_roundtrip (l : List Entity) :
    (l.map (fun e => EntityD.mk e.id e.type e.properties)).map
      (fun e => Entity.mk e.id e.type e.properties) = l := by
  induction l with
  | nil => rfl
  | cons x xs ih => rw [List.map_cons, List.map_cons, ih]

/-- Relation encode/decode composes to the identity. -/
theorem map_relation_roundtrip (l : List Relation) :
    (l.map (fun r => RelationD.mk r.source r.target r.type r.properties)).map
      (fun r => Relation.mk r.source r.target r.type r.properties) = l := by
  induction l with
  | nil => rfl
  | cons x xs ih => rw [List.map_cons, List.map_cons, ih]

/-- Postcondition encode/decode composes to the identity. -/
theorem map_postcondition_roundtrip (l : List Postcondition) :
    (l.map (fun pc => PostconditionD.mk pc.predicate pc.guarantees)).map
      (fun pc => Postcondition.mk pc.predicate pc.guarantees) = l := by
  induction l with
  | nil => rfl
  | cons x xs ih => rw [List.map_cons, List.map_cons, ih]

/-- Instantiation encode/decode composes to the identity. -/
theorem map_instantiation_roundtrip (l : List Instantiation) :
    (l.map (fun i => InstantiationD.mk i.domain i.concrete_problem
        i.concrete_solution i.mapping_notes)).map
      (fun i => Instantiation.mk i.domain i.concrete_problem
        i.concrete_solution i.mapping_notes) = l := by
  induction l with
  | nil => rfl
  | cons x xs ih => rw [List.map_cons, List.map_cons, ih]

/-- A pattern whose solution has empty metadata survives encode-then-decode
unchanged (the serializer drops the metadata bag). -/
theorem dictToPattern_patternToDict (p : Pattern)
    (hmeta : p.solution.metadata = []) :
    dictToPattern (patternToDict p) = some p := by
  have hc : decodeList dictToConstraint (p.problem.constraints.map
      (fun c => ConstraintD.mk c.predicate c.over c.type.value)) =
      some p.problem.constraints :=
    decodeList_map_roundtrip _ _ dictToConstraint_roundtrip _
  have hs : decodeList dictToStep (p.solution.transformation.steps.map
      (fun s => StepD.mk s.operation.value s.args s.binds s.rationale)) =
      some p.solution.transformation.steps :=
    decodeList_map_roundtrip _ _ dictToStep_roundtrip _
  obtain ⟨pid, pname, pdesc, prob, sol, insts, relp, tags⟩ := p
  obtain ⟨sid, sname, spre, ⟨steps, comp⟩, spost, smeta⟩ := sol
  obtain ⟨bid, bname, ⟨ents, rels⟩, bcon, bgoal, btags⟩ := prob
  simp only at hmeta
  subst hmeta
  cases bgoal with
  | none =>
      simp [dictToPattern, patternToDict, hc, hs,
        compositionType_value_roundtrip, Option.bind_eq_bind]
      exact ⟨⟨by rw [← List.map_map]; exact map_entity_roundtrip ents,
              by rw [← List.map_map]; exact map_relation_roundtrip rels⟩,
             by rw [← List.map_map]; exact map_postcondition_roundtrip spost,
             by rw [← List.map_map]; exact map_instantiation_roundtrip insts⟩
  | some g =>
      obtain ⟨gt, gtar, gpred⟩ := g
      simp [dictToPattern, patternToDict, hc, hs,
        compositionType_value_roundtrip, goalType_value_roundtrip,
        Option.bind_eq_bind]
      exact ⟨⟨by rw [← List.map_map]; exact map_entity_roundtrip ents,
              by rw [← List.map_map]; exact map_relation_roundtrip rels⟩,
             by rw [← List.map_map]; exact map_postcondition_roundtrip spost,
             by rw [← List.map_map]; exact map_instantiation_roundtrip insts⟩

/-- C6 counterexample: a pattern with nonempty solution metadata does not
survive save-then-load into a fresh store (the metadata bag is dropped, so
the loaded pattern differs field-for-field from the original). -/
theorem save_load_roundtrip_cex :
    (loadAux (storeSave [("meta", patMeta)]) []).1 = true ∧
    (loadAux (storeSave [("meta", patMeta)]) []).2 ≠ [("meta", patMeta)] :=
  ⟨rfl, by decide⟩

/-- Inserting a fresh key appends. -/
theorem storeInsert_fresh (st : StoreMap) (k : String) (p : Pattern)
    (h : k ∉ st.map Prod.fst) : storeInsert st k p = st ++ [(k, p)] := by
  rw [storeInsert, if_neg]
  intro hx
  obtain ⟨kv, hkv, hb⟩ := List.any_eq_true.mp hx
  exact h (beq_iff_eq.mp hb ▸ List.mem_map_of_mem Prod.fst hkv)

/-- Loading the saved records of a well-keyed store into an accumulator with
disjoint keys appends the store's entries in order. -/
theorem loadAux_save_aux (st : StoreMap) (acc : StoreMap)
    (hid : ∀ kp ∈ st, kp.1 = kp.2.id)
    (hnodup : (st.map Prod.fst).Nodup)
    (hmeta : ∀ kp ∈ st, kp.2.solution.metadata = [])
    (hdisj : ∀ k ∈ st.map Prod.fst, k ∉ acc.map Prod.fst) :
    loadAux (storeSave st) acc = (true, acc ++ st) := by
  induction st generalizing acc with
  | nil => simp [storeSave, storeValues, loadAux]
  | cons kp rest ih =>
      obtain ⟨k, p⟩ := kp
      have hk : k = p.id := hid (k, p) (List.mem_cons_self _ _)
      have hm : p.solution.metadata = [] := hmeta (k, p) (List.mem_cons_self _ _)
      have hfresh : p.id ∉ acc.map Prod.fst := by
        rw [← hk]
        exact hdisj k (by simp)
      simp only [storeSave, storeValues, List.map_cons, loadAux,
        dictToPattern_patternToDict p hm]
      rw [storeAdd, storeInsert_fresh acc p.id p hfresh, ← hk]
      rw [List.map_cons, List.nodup_cons] at hnodup
      have ih' := ih (acc ++ [(k, p)])
        (fun kp h => hid kp (List.mem_cons_of_mem _ h))
        hnodup.2
        (fun kp h => hmeta kp (List.mem_cons_of_mem _ h))
        (by
          intro k₂ hk₂ hk₂acc
          rw [List.map_append, List.mem_append] at hk₂acc
          rcases hk₂acc with hx | hx
          · exact hdisj k₂ (by simp [hk₂]) hx
          · simp only [List.map_cons, List.map_nil, List.mem_singleton] at hx
            exact hnodup.1 (hx ▸ hk₂))
      rw [List.append_assoc] at ih'
      exact ih'

/-- C6 (amended): save-then-load into a fresh store reproduces the pattern
set exactly, provided every stored solution's metadata bag is empty (the
serializer drops metadata; all other fields and enum tags round-trip). -/
theorem save_load_roundtrip (st : StoreMap)
    (hid : ∀ kp ∈ st, kp.1 = kp.2.id)
    (hnodup : (st.map Prod.fst).Nodup)
    (hmeta : ∀ kp ∈ st, kp.2.solution.metadata = []) :
    loadAux (storeSave st) [] = (true, st) := by
  simpa using loadAux_save_aux st [] hid hnodup hmeta (by simp)

/-- C6 witness: a singleton store round-trips. -/
theorem save_load_roundtrip_witness :
    (∀ kp ∈ [("pat0", patNoPre)], kp.1 = kp.2.id) ∧
    ([("pat0", patNoPre)].map Prod.fst).Nodup ∧
    (∀ kp ∈ [("pat0", patNoPre)], kp.2.solution.metadata = []) ∧
    loadAux (storeSave [("pat0", patNoPre)]) [] = (true, [("pat0", patNoPre)]) :=
  ⟨by decide, by decide, by decide,
    save_load_roundtrip [("pat0", patNoPre)] (by decide) (by decide) (by decide)⟩

namespace Structure

/-- Any neighbor produced by the adjacency lookup is a relation target, so
lands in `allNodes`. -/
theorem adjGet_mem_allNodes (s : Structure) (u n : String) (h : n ∈ s.adjGet u) :
    n ∈ allNodes s := by
  unfold adjGet at h
  obtain ⟨r, hr, hn⟩ := List.mem_map.mp h
  refine Finset.mem_union_right _ ?_
  rw [List.mem_toFinset]
  exact hn ▸ List.mem_map_of_mem Relation.target (List.mem_of_mem_filter hr)

/-- Entity ids land in `allNodes`. -/
theorem entity_id_mem_allNodes (s : Structure) (e : Entity) (h : e ∈ s.entities) :
    e.id ∈ allNodes s :=
  Finset.mem_union_left _
    (by rw [List.mem_toFinset]; exact List.mem_map_of_mem Entity.id h)

/-- The unvisited-node measure is antitone in the visited set. -/
theorem card_sdiff_mono (s : Structure) (v₁ v₂ : List String)
    (h : ∀ y ∈ v₁, y ∈ v₂) :
    (allNodes s \ v₂.toFinset).card ≤ (allNodes s \ v₁.toFinset).card := by
  refine Finset.card_le_card (Finset.sdiff_subset_sdiff (Finset.Subset.refl _) ?_)
  intro y hy
  rw [List.mem_toFinset] at hy ⊢
  exact h y hy

/-- With enough fuel the neighbor loop never exhausts, and the visited set
only grows. -/
theorem dfsList_fuel (s : Structure) (fuel : Nat)
    (hdfs : ∀ node visited stack, node ∈ allNodes s → node ∉ visited →
      (allNodes s \ visited.toFinset).card < fuel →
      ∃ r, dfsAux s fuel node visited stack = some r ∧
        (∀ y ∈ visited, y ∈ r.2) ∧ node ∈ r.2) :
    ∀ (ns visited stack : List String),
      (∀ n ∈ ns, n ∈ allNodes s) →
      (allNodes s \ visited.toFinset).card < fuel →
      ∃ r, dfsList (dfsAux s fuel) ns visited stack = some r ∧
        ∀ y ∈ visited, y ∈ r.2 := by
  intro ns
  induction ns with
  | nil => exact fun visited stack _ _ => ⟨(false, visited), rfl, fun y hy => hy⟩
  | cons n rest ih =>
      intro visited stack hns hcard
      by_cases hstack : n ∈ stack
      · exact ⟨(true, visited), by simp [dfsList, hstack], fun y hy => hy⟩
      · by_cases hvis : n ∈ visited
        · obtain ⟨r, hr, hsub⟩ :=
            ih visited stack (fun m hm => hns m (List.mem_cons_of_mem _ hm)) hcard
          exact ⟨r, by simp [dfsList, hstack, hvis, hr], hsub⟩
        · obtain ⟨r₁, hr₁, hsub₁, hmem₁⟩ :=
            hdfs n visited stack (hns n (List.mem_cons_self _ _)) hvis hcard
          obtain ⟨b₁, v₁⟩ := r₁
          cases b₁ with
          | true =>
              exact ⟨(true, v₁), by simp [dfsList, hstack, hvis, hr₁], hsub₁⟩
          | false =>
              have hcard₁ : (allNodes s \ v₁.toFinset).card < fuel :=
                lt_of_le_of_lt (card_sdiff_mono s visited v₁ hsub₁) hcard
              obtain ⟨r, hr, hsub⟩ :=
                ih v₁ stack (fun m hm => hns m (List.mem_cons_of_mem _ hm)) hcard₁
              exact ⟨r, by simp [dfsList, hstack, hvis, hr₁, hr],
                fun y hy => hsub y (hsub₁ y hy)⟩

/-- With fuel exceeding the number of unvisited reachable nodes, one `dfs`
call never exhausts its fuel, and the visited set grows monotonically to
include the root. -/
theorem dfs_fuel (s : Structure) (fuel : Nat) :
    ∀ (node : String) (visited stack : List String),
      node ∈ allNodes s → node ∉ visited →
      (allNodes s \ visited.toFinset).card < fuel →
      ∃ r, dfsAux s fuel node visited stack = some r ∧
        (∀ y ∈ visited, y ∈ r.2) ∧ node ∈ r.2 := by
  induction fuel with
  | zero => intro node visited stack _ _ hcard; omega
  | succ fuel ih =>
      intro node visited stack hnode hvis hcard
      have hmem : node ∈ allNodes s \ visited.toFinset :=
        Finset.mem_sdiff.mpr ⟨hnode, by rw [List.mem_toFinset]; exact hvis⟩
      have hcard₁ : (allNodes s \ (node :: visited).toFinset).card < fuel := by
        have heq : allNodes s \ (node :: visited).toFinset =
            (allNodes s \ visited.toFinset).erase node := by
          ext x
          simp only [Finset.mem_sdiff, List.toFinset_cons, Finset.mem_insert,
            Finset.mem_erase, not_or]
          tauto
        have hpos : 0 < (allNodes s \ visited.toFinset).card :=
          Finset.card_pos.mpr ⟨node, hmem⟩
        rw [heq, Finset.card_erase_of_mem hmem]
        omega
      obtain ⟨r, hr, hsub⟩ := dfsList_fuel s fuel
        (fun n v st hn hv hc => ih n v st hn hv hc)
        (s.adjGet node) (node :: visited) (node :: stack)
        (fun n hn => adjGet_mem_allNodes s node n hn) hcard₁
      exact ⟨r, hr, fun y hy => hsub y (List.mem_cons_of_mem _ hy),
        hsub node (List.mem_cons_self _ _)⟩

/-- The outer root loop never exhausts the structure's fuel bound. -/
theorem cycleLoop_fuel (s : Structure) :
    ∀ (es : List Entity) (visited : List String),
      (∀ e ∈ es, e ∈ s.entities) →
      (allNodes s \ visited.toFinset).card < structureFuel s →
      ∃ b, cycleLoopAux s (structureFuel s) es visited = some b := by
  intro es
  induction es with
  | nil => exact fun visited _ _ => ⟨false, rfl⟩
  | cons e rest ih =>
      intro visited hes hcard
      by_cases hvis : e.id ∈ visited
      · obtain ⟨b, hb⟩ :=
          ih visited (fun x hx => hes x (List.mem_cons_of_mem _ hx)) hcard
        exact ⟨b, by simp [cycleLoopAux, hvis, hb]⟩
      · obtain ⟨r, hr, hsub, hmem⟩ := dfs_fuel s (structureFuel s) e.id visited []
          (entity_id_mem_allNodes s e (hes e (List.mem_cons_self _ _))) hvis hcard
        obtain ⟨b₁, v₁⟩ := r
        cases b₁ with
        | true => exact ⟨true, by simp [cycleLoopAux, hvis, hr]⟩
        | false =>
            have hcard₁ : (allNodes s \ v₁.toFinset).card < structureFuel s :=
              lt_of_le_of_lt (card_sdiff_mono s visited v₁ hsub) hcard
            obtain ⟨b, hb⟩ :=
              ih v₁ (fun x hx => hes x (List.mem_cons_of_mem _ hx)) hcard₁
            exact ⟨b, by simp [cycleLoopAux, hvis, hr, hb]⟩

/-- The dead out-of-fuel branch of `_check_cycle` is indeed dead: the cycle
check always produces a boolean. -/
theorem checkCycleO_isSome (s : Structure) : ∃ b, s.checkCycleO = some b := by
  unfold checkCycleO
  split
  · exact ⟨false, rfl⟩
  · exact cycleLoop_fuel s s.entities [] (fun e he => he)
      (by simp [structureFuel, Nat.lt_succ_self])

/-- One further edge step extends a path. -/
theorem reaches_of_step {s : Structure} {a b : String} (h : StepRel s a b) :
    Reaches s a b :=
  Reaches.tail (Reaches.refl a) h

/-- A path followed by one edge step is a nonempty path. -/
theorem reachesPlus_of_reaches_step {s : Structure} {a b c : String}
    (h : Reaches s a b) (hb : StepRel s b c) : ReachesPlus s a c := by
  induction h generalizing c with
  | refl => exact ReachesPlus.single hb
  | tail h₁ h₂ ih => exact ReachesPlus.tail (ih h₂) hb

/-- Paths compose. -/
theorem reaches_trans {s : Structure} {a b c : String}
    (h₁ : Reaches s a b) (h₂ : Reaches s b c) : Reaches s a c := by
  induction h₂ with
  | refl => exact h₁
  | tail hx hy ih => exact Reaches.tail ih hy

/-- A nonempty path decomposes into a first step and a path. -/
theorem reachesPlus_head_decomp {s : Structure} {a b : String}
    (h : ReachesPlus s a b) : ∃ c, StepRel s a c ∧ Reaches s c b := by
  induction h with
  | single hs => exact ⟨_, hs, Reaches.refl _⟩
  | tail h₁ h₂ ih =>
      obtain ⟨c, hc, hr⟩ := ih
      exact ⟨c, hc, Reaches.tail hr h₂⟩

/-- Any property closed under edge steps propagates along paths. -/
theorem reaches_stays {s : Structure} (P : String → Prop)
    (hP : ∀ x, P x → ∀ n, StepRel s x n → P n) {a b : String}
    (hab : Reaches s a b) (ha : P a) : P b := by
  induction hab with
  | refl => exact ha
  | tail h₁ h₂ ih => exact hP _ ih _ h₂

/-- Soundness of the neighbor loop: a `true` return exhibits a directed
cycle reachable from the DFS root. -/
theorem dfsList_sound (s : Structure) (root u : String)
    (dfs : String → List String → List String → Option (Bool × List String))
    (hdfs : ∀ node visited stack v',
      (∀ x ∈ stack, Reaches s x node) →
      (∀ x ∈ stack, Reaches s root x) →
      Reaches s root node →
      dfs node visited stack = some (true, v') →
      ∃ x, Reaches s root x ∧ OnCycle s x) :
    ∀ (ns visited stack : List String) (v' : List String),
      (∀ n ∈ ns, StepRel s u n) →
      (∀ x ∈ stack, Reaches s x u) →
      (∀ x ∈ stack, Reaches s root x) →
      Reaches s root u →
      dfsList dfs ns visited stack = some (true, v') →
      ∃ x, Reaches s root x ∧ OnCycle s x := by
  intro ns
  induction ns with
  | nil => intro visited stack v' _ _ _ _ h; simp [dfsList] at h
  | cons n rest ih =>
      intro visited stack v' hns hchain hroot hu h
      by_cases hstack : n ∈ stack
      · exact ⟨n, hroot n hstack,
          reachesPlus_of_reaches_step (hchain n hstack) (hns n (List.mem_cons_self _ _))⟩
      · by_cases hvis : n ∈ visited
        · exact ih visited stack v' (fun m hm => hns m (List.mem_cons_of_mem _ hm))
            hchain hroot hu (by simpa [dfsList, hstack, hvis] using h)
        · cases hda : dfs n visited stack with
          | none => simp [dfsList, hstack, hvis, hda] at h
          | some r₁ =>
              obtain ⟨b₁, v₁⟩ := r₁
              cases b₁ with
              | true =>
                  exact hdfs n visited stack v₁
                    (fun x hx => Reaches.tail (hchain x hx) (hns n (List.mem_cons_self _ _)))
                    hroot
                    (Reaches.tail hu (hns n (List.mem_cons_self _ _)))
                    hda
              | false =>
                  exact ih v₁ stack v' (fun m hm => hns m (List.mem_cons_of_mem _ hm))
                    hchain hroot hu (by simpa [dfsList, hstack, hvis, hda] using h)

/-- Soundness of `dfs`: a `true` return exhibits a directed cycle reachable
from the root that started the traversal. -/
theorem dfs_sound (s : Structure) (root : String) (fuel : Nat) :
    ∀ (node : String) (visited stack : List String) (v' : List String),
      (∀ x ∈ stack, Reaches s x node) →
      (∀ x ∈ stack, Reaches s root x) →
      Reaches s root node →
      dfsAux s fuel node visited stack = some (true, v') →
      ∃ x, Reaches s root x ∧ OnCycle s x := by
  induction fuel with
  | zero => intro node visited stack v' _ _ _ h; exact absurd h (by simp [dfsAux])
  | succ fuel ih =>
      intro node visited stack v' hchain hroot hnode h
      refine dfsList_sound s root node (dfsAux s fuel) ih (s.adjGet node)
        (node :: visited) (node :: stack) v' (fun n hn => hn) ?_ ?_ hnode h
      · intro x hx
        rcases List.mem_cons.mp hx with rfl | hx'
        · exact Reaches.refl _
        · exact hchain x hx'
      · intro x hx
        rcases List.mem_cons.mp hx with rfl | hx'
        · exact hnode
        · exact hroot x hx'

/-- Soundness of the root loop: `true` means some entity id reaches a
directed cycle. -/
theorem cycleLoop_sound (s : Structure) (fuel : Nat) :
    ∀ (es : List Entity) (visited : List String),
      (∀ e ∈ es, e ∈ s.entities) →
      cycleLoopAux s fuel es visited = some true →
      HasEntityReachableCycle s := by
  intro es
  induction es with
  | nil => intro visited _ h; simp [cycleLoopAux] at h
  | cons e rest ih =>
      intro visited hes h
      by_cases hvis : e.id ∈ visited
      · exact ih visited (fun x hx => hes x (List.mem_cons_of_mem _ hx))
          (by simpa [cycleLoopAux, hvis] using h)
      · cases hda : dfsAux s fuel e.id visited [] with
        | none => simp [cycleLoopAux, hvis, hda] at h
        | some r =>
            obtain ⟨b, v₁⟩ := r
            cases b with
            | true =>
                obtain ⟨x, hrx, hcx⟩ := dfs_sound s e.id fuel e.id visited [] v₁
                  (by simp) (by simp) (Reaches.refl _) hda
                exact ⟨e, hes e (List.mem_cons_self _ _), x, hrx, hcx⟩
            | false =>
                exact ih v₁ (fun x hx => hes x (List.mem_cons_of_mem _ hx))
                  (by simpa [cycleLoopAux, hvis, hda] using h)

/-- Completeness invariant of the neighbor loop: a `false` return grows the
visited set, keeps the invariant, and leaves every processed neighbor
black. -/
theorem dfsList_complete (s : Structure)
    (dfs : String → List String → List String → Option (Bool × List String))
    (hdfs : ∀ node visited stack v', node ∉ visited → node ∉ stack →
      DfsInv s visited stack →
      dfs node visited stack = some (false, v') →
      (∀ y ∈ visited, y ∈ v') ∧ node ∈ v' ∧ DfsInv s v' stack) :
    ∀ (ns visited stack : List String) (v' : List String),
      DfsInv s visited stack →
      dfsList dfs ns visited stack = some (false, v') →
      (∀ y ∈ visited, y ∈ v') ∧ DfsInv s v' stack ∧
        ∀ n ∈ ns, n ∈ v' ∧ n ∉ stack := by
  intro ns
  induction ns with
  | nil =>
      intro visited stack v' hinv h
      simp only [dfsList, Option.some.injEq, Prod.mk.injEq, true_and] at h
      rw [← h]
      exact ⟨fun y hy => hy, hinv, by simp⟩
  | cons n rest ih =>
      intro visited stack v' hinv h
      by_cases hstack : n ∈ stack
      · simp [dfsList, hstack] at h
      · by_cases hvis : n ∈ visited
        · obtain ⟨hsub, hinv', hns⟩ :=
            ih visited stack v' hinv (by simpa [dfsList, hstack, hvis] using h)
          refine ⟨hsub, hinv', ?_⟩
          intro m hm
          rcases List.mem_cons.mp hm with rfl | hm'
          · exact ⟨hsub m hvis, hstack⟩
          · exact hns m hm'
        · cases hda : dfs n visited stack with
          | none => simp [dfsList, hstack, hvis, hda] at h
          | some r₁ =>
              obtain ⟨b₁, v₁⟩ := r₁
              cases b₁ with
              | true => simp [dfsList, hstack, hvis, hda] at h
              | false =>
                  obtain ⟨hsub₁, hmem₁, hinv₁⟩ :=
                    hdfs n visited stack v₁ hvis hstack hinv hda
                  obtain ⟨hsub, hinv', hns⟩ :=
                    ih v₁ stack v' hinv₁ (by simpa [dfsList, hstack, hvis, hda] using h)
                  refine ⟨fun y hy => hsub y (hsub₁ y hy), hinv', ?_⟩
                  intro m hm
                  rcases List.mem_cons.mp hm with rfl | hm'
                  · exact ⟨hsub m hmem₁, hstack⟩
                  · exact hns m hm'

/-- Completeness of `dfs`: a `false` return paints the root black while
preserving the invariant — in particular the root is on no cycle. -/
theorem dfs_complete (s : Structure) (fuel : Nat) :
    ∀ (node : String) (visited stack : List String) (v' : List String),
      node ∉ visited → node ∉ stack →
      DfsInv s visited stack →
      dfsAux s fuel node visited stack = some (false, v') →
      (∀ y ∈ visited, y ∈ v') ∧ node ∈ v' ∧ DfsInv s v' stack := by
  induction fuel with
  | zero => intro node visited stack v' _ _ _ h; exact absurd h (by simp [dfsAux])
  | succ fuel ih =>
      intro node visited stack v' hvis hstack hinv h
      have hinv₁ : DfsInv s (node :: visited) (node :: stack) := by
        intro x hx hxs
        have hxne : x ≠ node := fun hxx => hxs (hxx ▸ List.mem_cons_self _ _)
        have hx' : x ∈ visited := by
          rcases List.mem_cons.mp hx with h1 | h1
          · exact absurd h1 hxne
          · exact h1
        have hxs' : x ∉ stack := fun hss => hxs (List.mem_cons_of_mem _ hss)
        obtain ⟨hsucc, hcyc⟩ := hinv x hx' hxs'
        refine ⟨?_, hcyc⟩
        intro m hm
        obtain ⟨hm₁, hm₂⟩ := hsucc m hm
        refine ⟨List.mem_cons_of_mem _ hm₁, ?_⟩
        intro hmm
        rcases List.mem_cons.mp hmm with rfl | h2
        · exact hvis hm₁
        · exact hm₂ h2
      obtain ⟨hsub, hinv', hns⟩ := dfsList_complete s (dfsAux s fuel)
        (fun nd v st vv hv hs hi hh => ih nd v st vv hv hs hi hh)
        (s.adjGet node) (node :: visited) (node :: stack) v' hinv₁ h
      have hnodev : node ∈ v' := hsub node (List.mem_cons_self _ _)
      refine ⟨fun y hy => hsub y (List.mem_cons_of_mem _ hy), hnodev, ?_⟩
      intro x hxv hxs
      by_cases hxn : x = node
      · subst hxn
        refine ⟨?_, ?_⟩
        · intro m hm
          obtain ⟨hm₁, hm₂⟩ := hns m hm
          exact ⟨hm₁, fun hss => hm₂ (List.mem_cons_of_mem _ hss)⟩
        · intro hcyc
          obtain ⟨c, hc, hcr⟩ := reachesPlus_head_decomp hcyc
          obtain ⟨hc₁, hc₂⟩ := hns c hc
          have hP : ∀ y, (y ∈ v' ∧ y ∉ x :: stack) → ∀ m, StepRel s y m →
              (m ∈ v' ∧ m ∉ x :: stack) := by
            intro y hy m hm
            exact (hinv' y hy.1 hy.2).1 m hm
          have hend := reaches_stays (fun y => y ∈ v' ∧ y ∉ x :: stack) hP hcr ⟨hc₁, hc₂⟩
          exact hend.2 (List.mem_cons_self _ _)
      · have hxs₁ : x ∉ node :: stack := by
          intro hh
          rcases List.mem_cons.mp hh with h1 | h1
          · exact hxn h1
          · exact hxs h1
        obtain ⟨hsucc, hcyc⟩ := hinv' x hxv hxs₁
        refine ⟨?_, hcyc⟩
        intro m hm
        obtain ⟨hm₁, hm₂⟩ := hsucc m hm
        exact ⟨hm₁, fun hss => hm₂ (List.mem_cons_of_mem _ hss)⟩

/-- Completeness of the root loop: a `false` answer yields a black set that
covers all entity ids, is closed under edges, and meets no cycle. -/
theorem cycleLoop_complete (s : Structure) (fuel : Nat) :
    ∀ (es : List Entity) (visited : List String),
      DfsInv s visited [] →
      cycleLoopAux s fuel es visited = some false →
      ∃ V : List String, DfsInv s V [] ∧ (∀ y ∈ visited, y ∈ V) ∧
        ∀ e ∈ es, e.id ∈ V := by
  intro es
  induction es with
  | nil =>
      intro visited hinv _
      exact ⟨visited, hinv, fun y hy => hy, by simp⟩
  | cons e rest ih =>
      intro visited hinv h
      by_cases hvis : e.id ∈ visited
      · obtain ⟨V, hV, hsub, hes⟩ :=
          ih visited hinv (by simpa [cycleLoopAux, hvis] using h)
        refine ⟨V, hV, hsub, ?_⟩
        intro e₂ he₂
        rcases List.mem_cons.mp he₂ with rfl | he₂'
        · exact hsub _ hvis
        · exact hes e₂ he₂'
      · cases hda : dfsAux s fuel e.id visited [] with
        | none => simp [cycleLoopAux, hvis, hda] at h
        | some r =>
            obtain ⟨b, v₁⟩ := r
            cases b with
            | true => simp [cycleLoopAux, hvis, hda] at h
            | false =>
                obtain ⟨hsub₁, hmem₁, hinv₁⟩ := dfs_complete s fuel e.id visited [] v₁
                  hvis (by simp) hinv hda
                obtain ⟨V, hV, hsub, hes⟩ :=
                  ih v₁ hinv₁ (by simpa [cycleLoopAux, hvis, hda] using h)
                refine ⟨V, hV, fun y hy => hsub y (hsub₁ y hy), ?_⟩
                intro e₂ he₂
                rcases List.mem_cons.mp he₂ with rfl | he₂'
                · exact hsub _ hmem₁
                · exact hes e₂ he₂'

/-- No relations, no steps. -/
theorem no_step_of_no_relations (s : Structure) (h : s.relations = [])
    (a b : String) : ¬ StepRel s a b := by
  intro hs
  unfold StepRel adjGet at hs
  rw [h] at hs
  simp at hs

/-- The characterization of `_check_cycle`: it answers `true` exactly when
some entity id reaches a directed cycle. -/
theorem checkCycle_eq_true_iff (s : Structure) :
    s.checkCycle = true ↔ HasEntityReachableCycle s := by
  obtain ⟨b, hb⟩ := checkCycleO_isSome s
  have hcc : s.checkCycle = b := by rw [checkCycle, hb]; rfl
  unfold checkCycleO at hb
  by_cases hrel : s.relations.isEmpty = true
  · rw [if_pos hrel] at hb
    have hbf : b = false := ((Option.some.injEq _ _).mp hb).symm
    rw [hcc, hbf]
    constructor
    · intro h; cases h
    · rintro ⟨e, _he, x, _hr, hcyc⟩
      obtain ⟨c, hc, _⟩ := reachesPlus_head_decomp hcyc
      exact absurd hc (no_step_of_no_relations s (List.isEmpty_iff.mp hrel) x c)
  · rw [if_neg hrel] at hb
    constructor
    · intro h
      rw [hcc] at h
      rw [h] at hb
      exact cycleLoop_sound s (structureFuel s) s.entities [] (fun e he => he) hb
    · intro hcyc
      rw [hcc]
      by_contra hbt
      have hbf : b = false := by
        cases b
        · rfl
        · exact absurd rfl hbt
      rw [hbf] at hb
      obtain ⟨V, hV, _, hes⟩ := cycleLoop_complete s (structureFuel s) s.entities []
        (fun x hx => absurd hx (List.not_mem_nil x)) hb
      obtain ⟨e, he, x, hr, hcy⟩ := hcyc
      have hxV : x ∈ V := reaches_stays (fun y => y ∈ V)
        (fun y hy m hm => ((hV y hy (List.not_mem_nil y)).1 m hm).1) hr (hes e he)
      exact (hV x hxV (List.not_mem_nil x)).2 hcy

/-- Edge steps are invariant under permutation of the relation list. -/
theorem stepRel_perm {s₁ s₂ : Structure} (hperm : s₁.relations.Perm s₂.relations)
    (a b : String) : StepRel s₁ a b ↔ StepRel s₂ a b := by
  unfold StepRel adjGet
  exact ((hperm.filter _).map _).mem_iff

/-- Paths transfer along a step-preserving map. -/
theorem reaches_congr {s₁ s₂ : Structure}
    (hstep : ∀ a b, StepRel s₁ a b → StepRel s₂ a b)
    {a b : String} (h : Reaches s₁ a b) : Reaches s₂ a b := by
  induction h with
  | refl => exact Reaches.refl _
  | tail h₁ h₂ ih => exact Reaches.tail ih (hstep _ _ h₂)

/-- Nonempty paths transfer along a step-preserving map. -/
theorem reachesPlus_congr {s₁ s₂ : Structure}
    (hstep : ∀ a b, StepRel s₁ a b → StepRel s₂ a b)
    {a b : String} (h : ReachesPlus s₁ a b) : ReachesPlus s₂ a b := by
  induction h with
  | single hs => exact ReachesPlus.single (hstep _ _ hs)
  | tail h₁ h₂ ih => exact ReachesPlus.tail ih (hstep _ _ h₂)

end Structure

/-- C8: the feature detector is total and terminating on every structure —
including self-loops, parallel edges, disconnected components, and edges
whose endpoints name no entity: every feature check (the DFS cycle check in
particular) produces a boolean, which `has_feature` returns. -/
theorem hasFeature_total (s : Structure) (feature : String) :
    ∃ b, s.hasFeatureO feature = some b ∧ s.hasFeature feature = b := by
  unfold Structure.hasFeature Structure.hasFeatureO
  split
  · exact ⟨s.checkRecursive, rfl, rfl⟩
  · split
    · exact ⟨s.checkLinearChain, rfl, rfl⟩
    · split
      · exact ⟨s.checkTree, rfl, rfl⟩
      · split
        · obtain ⟨b, hb⟩ := Structure.checkCycleO_isSome s
          exact ⟨b, hb, by rw [hb]; rfl⟩
        · split
          · exact ⟨s.checkBipartite, rfl, rfl⟩
          · exact ⟨false, rfl, rfl⟩

/-- C4 counterexample: `sGhostCycle` has a directed cycle (a → b → a) in
the multigraph formed by its edges, but the cycle feature is reported
false, because neither cycle node appears in the entity list and the DFS
roots only at entity ids. -/
theorem cycle_feature_all_edges_cex :
    Structure.hasFeature sGhostCycle "cycle" = false ∧
    Structure.HasDirectedCycle sGhostCycle := by
  refine ⟨rfl, ⟨"a", ?_⟩⟩
  have hab : Structure.StepRel sGhostCycle "a" "b" := by decide
  have hba : Structure.StepRel sGhostCycle "b" "a" := by decide
  exact Structure.ReachesPlus.tail (Structure.ReachesPlus.single hab) hba

/-- C4 (amended): the cycle feature is true iff a directed cycle reachable
from some entity id exists (edge type irrelevant, and in particular an
empty edge list yields false); cycles lying among node ids that appear only
as edge endpoints, unreachable from every entity id, are not detected. -/
theorem cycle_feature_iff_entity_reachable (s : Structure) :
    s.hasFeature "cycle" = true ↔ Structure.HasEntityReachableCycle s := by
  have h : s.hasFeature "cycle" = s.checkCycle := rfl
  rw [h]
  exact Structure.checkCycle_eq_true_iff s

/-- C7: the cycle feature check returns the same boolean on a structure
whose nonempty edge list is permuted (entities unchanged). -/
theorem checkCycle_perm_invariant (s₁ s₂ : Structure)
    (_hne : s₁.relations ≠ [])
    (hent : s₁.entities = s₂.entities)
    (hperm : s₁.relations.Perm s₂.relations) :
    s₁.checkCycle = s₂.checkCycle := by
  have h12 : ∀ a b, Structure.StepRel s₁ a b → Structure.StepRel s₂ a b :=
    fun a b hab => (Structure.stepRel_perm hperm a b).mp hab
  have h21 : ∀ a b, Structure.StepRel s₂ a b → Structure.StepRel s₁ a b :=
    fun a b hab => (Structure.stepRel_perm hperm a b).mpr hab
  have hcyc : Structure.HasEntityReachableCycle s₁ ↔
      Structure.HasEntityReachableCycle s₂ := by
    constructor
    · rintro ⟨e, he, x, hr, hc⟩
      exact ⟨e, hent ▸ he, x, Structure.reaches_congr h12 hr,
        Structure.reachesPlus_congr h12 hc⟩
    · rintro ⟨e, he, x, hr, hc⟩
      exact ⟨e, hent ▸ he, x, Structure.reaches_congr h21 hr,
        Structure.reachesPlus_congr h21 hc⟩
  cases h₁ : s₁.checkCycle <;> cases h₂ : s₂.checkCycle
  · rfl
  · have := (Structure.checkCycle_eq_true_iff s₁).mpr
      (hcyc.mpr ((Structure.checkCycle_eq_true_iff s₂).mp h₂))
    rw [h₁] at this
    exact absurd this (by decide)
  · have := (Structure.checkCycle_eq_true_iff s₂).mpr
      (hcyc.mp ((Structure.checkCycle_eq_true_iff s₁).mp h₁))
    rw [h₂] at this
    exact absurd this (by decide)
  · rfl

/-- C7 witness: the two-node cycle with its two edges listed in either
order. -/
theorem checkCycle_perm_invariant_witness :
    sCyc1.relations ≠ [] ∧ sCyc1.entities = sCyc2.entities ∧
    sCyc1.relations.Perm sCyc2.relations ∧
    sCyc1.checkCycle = sCyc2.checkCycle :=
  ⟨by decide, rfl, List.Perm.swap _ _ _,
    checkCycle_perm_invariant sCyc1 sCyc2 (by decide) rfl (List.Perm.swap _ _ _)⟩

end APS
